import Mathlib

set_option maxHeartbeats 1000000

namespace MCP

/-!
Shallow embedding of the mcp-client turn-orchestration system.

Frontend code (under src/) is embedded directly:
* the zustand chat store (`addMessage`, `deleteChat`),
* the SSE stream reader of `handleSend` in `ChatContainer`,
* `cleanLLMResponse` from `MessageBubble.tsx`.

Backend components (Session Memory, Fingerprint Cache, Response Formatter,
Turn Orchestrator) live in `backend/app`, which is not part of the sources
available here; they are modelled from the specification where needed, each
such definition carrying a doc comment that says so.
-/

/-! ## Chat store (frontend `store.ts`) -/

structure Message where
  id : String
  role : String
  content : String
  timestamp : Nat
deriving DecidableEq, Repr

structure Chat where
  id : String
  title : String
  messages : List Message
  createdAt : Nat
  updatedAt : Nat
deriving DecidableEq, Repr

structure ChatState where
  chats : List Chat
  activeChatId : Option String
deriving DecidableEq, Repr

/-- `deleteChat` from the chat store: keeps chats whose id differs from `id`
and clears `activeChatId` exactly when it pointed at `id`. -/
def deleteChat (id : String) (st : ChatState) : ChatState :=
  { chats := st.chats.filter (fun c => c.id ≠ id),
    activeChatId := if st.activeChatId = some id then none else st.activeChatId }

/-- `addMessage` from the chat store.  `newId` stands for the random id
produced by `generateId()` and `now` for the `Date` timestamps. -/
def addMessage (chatId : String) (role : String) (content : String)
    (newId : String) (now : Nat) (st : ChatState) : ChatState :=
  let newMessage : Message := { id := newId, role := role, content := content, timestamp := now }
  { st with
    chats := st.chats.map (fun c =>
      if c.id = chatId then
        { c with
          messages := c.messages ++ [newMessage],
          updatedAt := now,
          title :=
            if c.messages.length = 0 ∧ role = "user" then
              content.take 30 ++ (if 30 < content.length then "..." else "")
            else c.title }
      else c) }

/-! ## SSE stream reader (frontend `ChatContainer`, `handleSend`) -/

/-- One parsed `data:` payload, dispatched on its `type` field; absent JSON
fields are modelled as `""` (they are only read in the branch that matches
the type, where the producer supplies them). -/
structure RawEvent where
  type : String
  message : String
  tool : String
  delta : String
  content : String
deriving DecidableEq, Repr

/-- One line of the SSE stream as the reader sees it: a line that does not
start with `data: `, a `data:` line whose payload fails `JSON.parse`, or a
successfully parsed event object. -/
inductive StreamLine where
  | notData : StreamLine
  | badJson : StreamLine
  | parsed : RawEvent → StreamLine
deriving DecidableEq, Repr

structure ReadState where
  finalContent : String
  toolsUsed : List String
  streamingContent : String
  streamingStatus : String
deriving DecidableEq, Repr

/-- The if/else-if chain of `handleSend` over a parsed event; the chain has
no final `else`, so an unknown `type` leaves the state untouched. -/
def processEvent (st : ReadState) (e : RawEvent) : ReadState :=
  if e.type = "status" then { st with streamingStatus := e.message }
  else if e.type = "tool_call" then
    { st with toolsUsed := st.toolsUsed ++ [e.tool],
              streamingStatus := "Calling " ++ e.tool ++ "..." }
  else if e.type = "tool_result" then
    { st with streamingStatus := e.tool ++ " completed" }
  else if e.type = "content_delta" then
    { st with finalContent := st.finalContent ++ e.delta,
              streamingContent := st.finalContent ++ e.delta,
              streamingStatus := "" }
  else if e.type = "content" ∨ e.type = "content_final" then
    { st with finalContent := e.content, streamingContent := e.content, streamingStatus := "" }
  else if e.type = "tools_summary" then st
  else if e.type = "error" then
    { st with finalContent := e.content, streamingContent := e.content, streamingStatus := "" }
  else st

/-- Per-line processing: non-`data:` lines are skipped, parse failures are
swallowed by the `catch`, parsed events are dispatched. -/
def processLine (st : ReadState) (l : StreamLine) : ReadState :=
  match l with
  | StreamLine.notData => st
  | StreamLine.badJson => st
  | StreamLine.parsed e => processEvent st e

def initialReadState : ReadState :=
  { finalContent := "", toolsUsed := [], streamingContent := "", streamingStatus := "Connecting..." }

def runStream (st : ReadState) (ls : List StreamLine) : ReadState :=
  ls.foldl processLine st

/-- The assistant message `handleSend` appends when the stream ends. -/
def finalAssistantContent (ls : List StreamLine) : String :=
  let st := runStream initialReadState ls
  if st.finalContent ≠ "" then st.finalContent else "No response received from server."

def lineDelta (l : StreamLine) : String :=
  match l with
  | StreamLine.parsed e => if e.type = "content_delta" then e.delta else ""
  | _ => ""

def deltaConcat : List StreamLine → String
  | [] => ""
  | l :: ls => lineDelta l ++ deltaConcat ls

def handledTypes : List String :=
  ["status", "tool_call", "tool_result", "content_delta", "content",
   "content_final", "tools_summary", "error"]

/-- A line that none of the reader's branches handles. -/
def unhandledLine (l : StreamLine) : Bool :=
  match l with
  | StreamLine.notData => true
  | StreamLine.badJson => true
  | StreamLine.parsed e => !(handledTypes.contains e.type)

/-- A line that carries none of the terminal-content event kinds. -/
def noTerminalContent (l : StreamLine) : Bool :=
  match l with
  | StreamLine.parsed e =>
    !(e.type = "content" || e.type = "content_final" || e.type = "error")
  | _ => true

/-! ## Backend components, modelled from the specification

The FastAPI backend (`backend/app`) implementing the Turn Orchestrator,
Session Memory, Fingerprint Cache and Response Formatter is not among the
available sources; the definitions below are modelled from the spec. -/

/-- Modelled from the spec: an Exchange retained by the backend Session
Memory (§3) — a user message paired with the agent's final response and the
tool invocations used to produce it.  The backend implementation in
`backend/app` is not available under src. -/
structure Exchange where
  userMessage : String
  agentResponse : String
  toolsUsed : List String
deriving DecidableEq, Repr

/-- Modelled from the spec: Session Memory retains at most the last 5
Exchanges (§3, §4.4). -/
def memoryLimit : Nat := 5

/-- Modelled from the spec: `append(sessionId, exchange)` of the backend
Session Memory (§4.4) — appends the exchange and evicts oldest first (FIFO)
whenever the window exceeds `memoryLimit`.  The backend implementation in
`backend/app` is not available under src. -/
def appendExchange (mem : List Exchange) (e : Exchange) : List Exchange :=
  let m := mem ++ [e]
  if memoryLimit < m.length then m.drop (m.length - memoryLimit) else m

/-- Modelled from the spec: the tool-catalog entry `{name, mutating}` (§6)
that drives Fingerprint Cache eligibility. -/
structure ToolMeta where
  name : String
  mutating : Bool
deriving DecidableEq, Repr

/-- Modelled from the spec: argument canonicalization for fingerprints —
keys sorted (values are taken already normalized) (§3). -/
def insertByKey (p : String × String) :
    List (String × String) → List (String × String)
  | [] => [p]
  | q :: qs => if p.1 ≤ q.1 then p :: q :: qs else q :: insertByKey p qs

/-- Modelled from the spec: canonicalized argument list, keys sorted (§3). -/
def canonArgs (args : List (String × String)) : List (String × String) :=
  args.foldr insertByKey []

/-- Modelled from the spec: per-session Fingerprint Cache state plus the
passive log of Tool Gateway invocations (§4.2, §4.3).  The backend
implementation in `backend/app` is not available under src. -/
structure CacheState where
  cache : List ((String × List (String × String)) × String)
  gatewayLog : List (String × List (String × String))
deriving DecidableEq, Repr

/-- Modelled from the spec: `lookup(sessionId, fingerprint)` of the
Fingerprint Cache (§4.3), an association-list lookup. -/
def lookupFp (cache : List ((String × List (String × String)) × String))
    (fp : String × List (String × String)) : Option String :=
  match cache with
  | [] => none
  | (k, v) :: rest => if k = fp then some v else lookupFp rest fp

/-- Modelled from the spec: the Orchestrator's tool dispatch (§4.3, §4.6):
mutating tools always go to the Tool Gateway and never touch the cache;
non-mutating tools consult the cache immediately before the gateway call and
update it immediately after a successful non-cached call.  `gateway` stands
for the Tool Gateway collaborator.  The backend implementation in
`backend/app` is not available under src. -/
def dispatchTool (gateway : String → List (String × String) → String)
    (t : ToolMeta) (args : List (String × String)) (st : CacheState) :
    String × CacheState :=
  let fp := (t.name, canonArgs args)
  if t.mutating then
    (gateway t.name args, { st with gatewayLog := st.gatewayLog ++ [fp] })
  else
    match lookupFp st.cache fp with
    | some r => (r, st)
    | none =>
      let r := gateway t.name args
      (r, { cache := st.cache ++ [(fp, r)], gatewayLog := st.gatewayLog ++ [fp] })

/-- Modelled from the spec: the Response Formatter's row threshold, default
10 (§4.5). -/
def defaultRowThreshold : Nat := 10

/-- Modelled from the spec: rendering of one table row by the Response
Formatter (§4.5). -/
def renderRow (row : List (String × String)) : String :=
  "| " ++ String.intercalate " | " (row.map Prod.snd) ++ " |"

/-- Modelled from the spec: the Response Formatter's rendering of an array
result, one output line per list entry (§4.5): arrays longer than the
threshold get a summary line stating the total count followed by a table of
the first `threshold` elements; shorter arrays are rendered whole.  The
backend implementation in `backend/app` is not available under src. -/
def formatResult (threshold : Nat) (rows : List (List (String × String))) :
    List String :=
  if threshold < rows.length then
    ("Found " ++ toString rows.length ++ " items, showing top " ++ toString threshold)
      :: (rows.take threshold).map renderRow
  else rows.map renderRow

/-- Modelled from the spec: the events of the streamed event sequence the
Turn Orchestrator produces (§6). -/
inductive OrchEvent where
  | status : String → OrchEvent
  | toolCall : String → OrchEvent
  | toolResult : String → OrchEvent
  | contentFinal : String → OrchEvent
  | errorEv : String → OrchEvent
deriving DecidableEq, Repr

/-- Terminal events of a turn: `content_final` or `error` (§6). -/
def isTerminal (e : OrchEvent) : Bool :=
  match e with
  | OrchEvent.contentFinal _ => true
  | OrchEvent.errorEv _ => true
  | _ => false

/-- Modelled from the spec: a Model Adapter decision (§4.1), with `failure`
standing for a model call that exhausted its retries. -/
inductive Decision where
  | toolCalls : List String → Decision
  | finalText : String → Decision
  | failure : Decision
deriving DecidableEq, Repr

/-- Modelled from the spec: the started/finished event pair streamed for
each tool call of a batch, in request order (§4.6, §5). -/
def toolEvents (names : List String) : List OrchEvent :=
  names.foldr (fun n acc => OrchEvent.toolCall n :: OrchEvent.toolResult n :: acc) []

/-- Modelled from the spec: the deciding/invoking-tool loop of the Turn
Orchestrator (§4.6), bounded by the maximum tool-call round count; running
out of rounds or a failed model decision yields a single `error` event, a
final text yields a single `content_final`.  The backend implementation in
`backend/app` is not available under src. -/
def runRounds (decideFn : Nat → Decision) (fuel : Nat) (round : Nat) :
    List OrchEvent :=
  match fuel with
  | 0 => [OrchEvent.errorEv "Could not complete the request."]
  | Nat.succ f =>
    match decideFn round with
    | Decision.finalText t => [OrchEvent.contentFinal t]
    | Decision.failure => [OrchEvent.errorEv "The model could not produce a decision."]
    | Decision.toolCalls names => toolEvents names ++ runRounds decideFn f (round + 1)

/-- Modelled from the spec: one full turn of the Orchestrator (§4.6): an
ambiguous message with no prior clarification streams a clarifying question
as the turn's final content; otherwise progress is streamed and the
deciding loop runs.  The backend implementation in `backend/app` is not
available under src. -/
def runTurn (ambiguous alreadyAsked : Bool) (decideFn : Nat → Decision)
    (maxRounds : Nat) : List OrchEvent :=
  if ambiguous && !alreadyAsked then
    [OrchEvent.contentFinal "Could you clarify your request?"]
  else OrchEvent.status "Thinking..." :: runRounds decideFn maxRounds 0

/-- Kind of a completed turn, as seen by the caller. -/
inductive TurnKind where
  | clarify : TurnKind
  | answer : TurnKind
deriving DecidableEq, Repr

def isClarify (k : TurnKind) : Bool :=
  match k with
  | TurnKind.clarify => true
  | TurnKind.answer => false

/-- Modelled from the spec: the ask-once clarification rule (§4.6): an
ambiguous message is answered with one clarifying question only when no
clarification was requested for the previous message; afterwards the
Orchestrator proceeds with its best interpretation.  Returns the turn kind
and the asked-flag carried to the next message.  The backend implementation
in `backend/app` is not available under src. -/
def classifyTurn (ambiguous : Bool) (askedBefore : Bool) : TurnKind × Bool :=
  if ambiguous && !askedBefore then (TurnKind.clarify, true)
  else (TurnKind.answer, false)

/-- Modelled from the spec: a session's sequence of turns driven by the
per-message ambiguity flags (§4.6). -/
def runTurnSeq (askedBefore : Bool) : List Bool → List TurnKind
  | [] => []
  | a :: as =>
    let r := classifyTurn a askedBefore
    r.1 :: runTurnSeq r.2 as

/-- No two consecutive turns are clarification turns. -/
def noConsecutiveClarify : List TurnKind → Bool
  | [] => true
  | [_] => true
  | a :: b :: rest => !(isClarify a && isClarify b) && noConsecutiveClarify (b :: rest)

/-! ## `cleanLLMResponse` (frontend `MessageBubble.tsx`)

The function is embedded over `List Char`.  The regex
`/\bassistant(analysis|final|thinking)\b/gi` is embedded as a left-to-right
scanner on the character list: `\b` is the JS word boundary over
`[A-Za-z0-9_]`, the `i` flag is ASCII case folding (JS canonicalization
without the `u` flag does not fold non-ASCII onto ASCII), and `/g` resumes
scanning right after each removed match, exactly like `String.replace`. -/

/-- JS `\w`: ASCII letters, digits and underscore. -/
def wordChar (c : Char) : Bool :=
  ('a' ≤ c && c ≤ 'z') || ('A' ≤ c && c ≤ 'Z') || ('0' ≤ c && c ≤ '9') || c = '_'

/-- ASCII lower-casing, the case folding the `i` flag performs on the
pattern's ASCII letters. -/
def lcAscii (c : Char) : Char :=
  if 'A' ≤ c && c ≤ 'Z' then Char.ofNat (c.toNat + 32) else c

/-- Case-insensitive pattern match at the head of the list. -/
def ciPref : List Char → List Char → Bool
  | [], _ => true
  | _ :: _, [] => false
  | a :: as, c :: cs => (lcAscii c = lcAscii a) && ciPref as cs

/-- `\b` before a match: start of input or a non-word character. -/
def boundary (prev : Option Char) : Bool :=
  match prev with
  | none => true
  | some c => !wordChar c

/-- `\b` after a match: end of input or a non-word character next. -/
def headBoundary (l : List Char) : Bool :=
  match l with
  | [] => true
  | c :: _ => !wordChar c

def mAnalysis : List Char := String.toList "assistantanalysis"

def mFinal : List Char := String.toList "assistantfinal"

def mThinkingMarker : List Char := String.toList "assistantthinking"

/-- Attempt the alternation `assistant(analysis|final|thinking)` with its
trailing `\b` at the current position; returns the match length and the
match's last character (the scanner's context after skipping it). -/
def matchAt (l : List Char) : Option (Nat × Char) :=
  if ciPref mAnalysis l && headBoundary (l.drop 17) then some (17, 's')
  else if ciPref mFinal l && headBoundary (l.drop 14) then some (14, 'l')
  else if ciPref mThinkingMarker l && headBoundary (l.drop 17) then some (17, 'g')
  else none

/-- The global replace `content.replace(/\bassistant(...)\b/gi, '')` as a
scanner: `prev` is the character preceding the current position in the
original string (`none` at the start). -/
def removeMarkers (prev : Option Char) (l : List Char) : List Char :=
  match l with
  | [] => []
  | c :: cs =>
    if boundary prev then
      match matchAt (c :: cs) with
      | some (n, lastc) => removeMarkers (some lastc) (cs.drop (n - 1))
      | none => c :: removeMarkers (some c) cs
    else c :: removeMarkers (some c) cs
termination_by l.length
decreasing_by
  · simp [List.length_drop]
    omega
  · simp
  · simp

/-- `content.lastIndexOf('assistantfinal')`: does `p` occur in `l`? -/
def containsSeq (p : List Char) : List Char → Bool
  | [] => p.isEmpty
  | c :: cs => p.isPrefixOf (c :: cs) || containsSeq p cs

/-- `content.substring(finalMarker + 'assistantfinal'.length)` after
`lastIndexOf`: the suffix after the last occurrence of `p`, the whole list
when `p` does not occur. -/
def afterLast (p : List Char) (l : List Char) : List Char :=
  match l with
  | [] => []
  | c :: cs =>
    if containsSeq p cs then afterLast p cs
    else if p.isPrefixOf (c :: cs) then (c :: cs).drop p.length
    else c :: cs

/-- Emission of a squashed newline run: `\n{3,}` is replaced by two
newlines, shorter runs are kept. -/
def emitNl (k : Nat) : List Char :=
  List.replicate (if 3 ≤ k then 2 else k) '\n'

/-- `content.replace(/\n{3,}/g, '\n\n')`: `k` counts the pending run of
newlines already consumed. -/
def squashGo (k : Nat) : List Char → List Char
  | [] => emitNl k
  | c :: cs => if c = '\n' then squashGo (k + 1) cs else emitNl k ++ c :: squashGo 0 cs

def squashNl (l : List Char) : List Char :=
  squashGo 0 l

/-- The ECMAScript `trim` whitespace set (WhiteSpace ∪ LineTerminator). -/
def jsWhite (c : Char) : Bool :=
  c = ' ' || c = '\t' || c = '\n' || c = '\r' ||
  c = Char.ofNat 0x0b || c = Char.ofNat 0x0c || c = Char.ofNat 0xa0 ||
  c = Char.ofNat 0x1680 || (Char.ofNat 0x2000 ≤ c && c ≤ Char.ofNat 0x200a) ||
  c = Char.ofNat 0x2028 || c = Char.ofNat 0x2029 || c = Char.ofNat 0x202f ||
  c = Char.ofNat 0x205f || c = Char.ofNat 0x3000 || c = Char.ofNat 0xfeff

def trimL (l : List Char) : List Char :=
  l.dropWhile jsWhite

def trimR (l : List Char) : List Char :=
  (l.reverse.dropWhile jsWhite).reverse

/-- `content.trim()`. -/
def jsTrim (l : List Char) : List Char :=
  trimR (trimL l)

/-- `cleanLLMResponse` from `MessageBubble.tsx`: cut everything up to the
last `assistantfinal` marker, strip the `assistant…` markers, squash runs
of three or more newlines to two, and trim. -/
def cleanLLMResponse (l : List Char) : List Char :=
  jsTrim (squashNl (removeMarkers none (afterLast mFinal l)))

/-! ## Proof-side predicates for `cleanLLMResponse` -/

/-- Lowercase ASCII letter, the character class of the markers. -/
def lowAlpha (c : Char) : Bool :=
  'a' ≤ c && c ≤ 'z'

/-- Newline runs stay at length ≤ 2: `k` is the length of the pending run. -/
def runOK (k : Nat) : List Char → Bool
  | [] => true
  | c :: cs => if c = '\n' then (k + 1 ≤ 2) && runOK (k + 1) cs else runOK 0 cs

/-- The scanner of `removeMarkers` would find a match somewhere in `l`,
given the character `prev` preceding `l`. -/
def hasMatch : Option Char → List Char → Bool
  | _, [] => false
  | prev, c :: cs => (boundary prev && (matchAt (c :: cs)).isSome) || hasMatch (some c) cs

/-! ## Concrete fixtures for witness theorems -/

def chatA : Chat :=
  { id := "a", title := "A", messages := [], createdAt := 0, updatedAt := 0 }

def chatB : Chat :=
  { id := "b", title := "B", messages := [], createdAt := 1, updatedAt := 1 }

def chatStore0 : ChatState :=
  { chats := [chatA, chatB], activeChatId := some "a" }

def unknownEvent : RawEvent :=
  { type := "ping", message := "", tool := "", delta := "", content := "" }

def deltaEvent (s : String) : RawEvent :=
  { type := "content_delta", message := "", tool := "", delta := s, content := "" }

def sampleStream : List StreamLine :=
  [StreamLine.parsed (deltaEvent "Hel"), StreamLine.notData,
   StreamLine.parsed (deltaEvent "lo")]

def sampleExchange (n : Nat) : Exchange :=
  { userMessage := "u" ++ toString n, agentResponse := "r", toolsUsed := [] }

def memFull : List Exchange :=
  [sampleExchange 1, sampleExchange 2, sampleExchange 3, sampleExchange 4, sampleExchange 5]

def gateway0 (name : String) (_ : List (String × String)) : String :=
  "result:" ++ name

def toolRead : ToolMeta := { name := "get_offenses", mutating := false }

def toolWrite : ToolMeta := { name := "delete_offense", mutating := true }

def cache0 : CacheState := { cache := [], gatewayLog := [] }

def argsTop : List (String × String) := [("limit", "10")]

def rows11 : List (List (String × String)) :=
  List.replicate 11 [("id", "1")]

/-! ## Theorems -/

/-- C10: `deleteChat` removes exactly the chats whose id equals the
argument: none with that id remains, the others survive unchanged in their
relative order, and `activeChatId` is nulled exactly when it pointed at the
deleted id, otherwise kept. -/
theorem deleteChat_spec (id : String) (st : ChatState) :
    (∀ c, c ∈ (deleteChat id st).chats → c.id ≠ id) ∧
    (deleteChat id st).chats.Sublist st.chats ∧
    (∀ c, c ∈ st.chats → c.id ≠ id → c ∈ (deleteChat id st).chats) ∧
    (deleteChat id st).activeChatId =
      (if st.activeChatId = some id then none else st.activeChatId) := by
  refine ⟨?_, List.filter_sublist st.chats, ?_, rfl⟩
  · intro c hc
    simp only [deleteChat, List.mem_filter, decide_eq_true_eq] at hc
    exact hc.2
  · intro c hc hne
    simp only [deleteChat, List.mem_filter, decide_eq_true_eq]
    exact ⟨hc, hne⟩

theorem deleteChat_spec_witness :
    chatB ∈ (deleteChat "a" chatStore0).chats ∧
    (deleteChat "a" chatStore0).activeChatId = none := by
  constructor
  · exact (deleteChat_spec "a" chatStore0).2.2.1 chatB (by simp [chatStore0]) (by decide)
  · have h := (deleteChat_spec "a" chatStore0).2.2.2
    simpa [chatStore0] using h

/-- C9: `addMessage` keeps the chat list's length, leaves every chat with a
different id untouched at its position, and rewrites the targeted chat by
appending exactly the new message, refreshing `updatedAt`, and retitling
only when the list was empty and the role is `user` (first 30 characters,
`...` appended exactly when the content is longer than 30). -/
theorem addMessage_frame (chatId role content newId : String) (now : Nat)
    (st : ChatState) :
    (addMessage chatId role content newId now st).chats.length = st.chats.length ∧
    ∀ (i : Nat) (c : Chat), st.chats[i]? = some c →
      (c.id ≠ chatId → (addMessage chatId role content newId now st).chats[i]? = some c) ∧
      (c.id = chatId → (addMessage chatId role content newId now st).chats[i]? = some
        { c with
          messages := c.messages ++
            [{ id := newId, role := role, content := content, timestamp := now }],
          updatedAt := now,
          title :=
            if c.messages.length = 0 ∧ role = "user" then
              content.take 30 ++ (if 30 < content.length then "..." else "")
            else c.title }) := by
  constructor
  · simp [addMessage]
  · intro i c hc
    constructor
    · intro hne
      simp [addMessage, List.getElem?_map, hc, hne]
    · intro heq
      simp [addMessage, List.getElem?_map, hc, heq]

theorem addMessage_frame_witness :
    chatA.id = "a" ∧
    (addMessage "a" "user" "hello" "m1" 7 chatStore0).chats[0]? = some
      { chatA with
        messages := chatA.messages ++
          [{ id := "m1", role := "user", content := "hello", timestamp := 7 }],
        updatedAt := 7,
        title :=
          if chatA.messages.length = 0 ∧ "user" = "user" then
            "hello".take 30 ++ (if 30 < "hello".length then "..." else "")
          else chatA.title } ∧
    chatB.id ≠ "a" ∧
    (addMessage "a" "user" "hello" "m1" 7 chatStore0).chats[1]? = some chatB := by
  refine ⟨rfl, ?_, by decide, ?_⟩
  · exact ((addMessage_frame "a" "user" "hello" "m1" 7 chatStore0).2 0 chatA
      (by simp [chatStore0])).2 rfl
  · exact ((addMessage_frame "a" "user" "hello" "m1" 7 chatStore0).2 1 chatB
      (by simp [chatStore0])).1 (by decide)

/-- C8: the stream reader is total over arbitrary lines: a non-`data:`
line, a `data:` line with unparsable JSON, or a parsed event whose `type`
matches no handled kind leaves the reader state completely unchanged. -/
theorem streamReader_total (st : ReadState) (l : StreamLine)
    (h : unhandledLine l = true) : processLine st l = st := by
  cases l with
  | notData => rfl
  | badJson => rfl
  | parsed e =>
    simp only [unhandledLine, handledTypes, List.contains_cons, Bool.not_eq_true',
      Bool.or_eq_false_iff, beq_eq_false_iff_ne, ne_eq, List.contains_nil] at h
    obtain ⟨h1, h2, h3, h4, h5, h6, h7, h8, -⟩ := h
    simp [processLine, processEvent, h1, h2, h3, h4, h5, h6, h7, h8]

theorem streamReader_total_witness :
    processLine initialReadState (StreamLine.parsed unknownEvent) = initialReadState ∧
    processLine initialReadState StreamLine.badJson = initialReadState := by
  constructor
  · exact streamReader_total initialReadState (StreamLine.parsed unknownEvent) (by decide)
  · exact streamReader_total initialReadState StreamLine.badJson (by decide)

theorem processLine_finalContent (st : ReadState) (l : StreamLine)
    (h : noTerminalContent l = true) :
    (processLine st l).finalContent = st.finalContent ++ lineDelta l := by
  cases l with
  | notData => simp [processLine, lineDelta]
  | badJson => simp [processLine, lineDelta]
  | parsed e =>
    simp only [noTerminalContent, Bool.not_eq_true', Bool.or_eq_false_iff,
      decide_eq_false_iff_not] at h
    obtain ⟨⟨hc, hcf⟩, herr⟩ := h
    by_cases h1 : e.type = "status"
    · simp [processLine, processEvent, lineDelta, h1]
    · by_cases h2 : e.type = "tool_call"
      · simp [processLine, processEvent, lineDelta, h1, h2]
      · by_cases h3 : e.type = "tool_result"
        · simp [processLine, processEvent, lineDelta, h1, h2, h3]
        · by_cases h4 : e.type = "content_delta"
          · simp [processLine, processEvent, lineDelta, h1, h2, h3, h4]
          · by_cases h5 : e.type = "tools_summary"
            · simp [processLine, processEvent, lineDelta, h1, h2, h3, h4, h5, hc, hcf]
            · simp [processLine, processEvent, lineDelta, h1, h2, h3, h4, h5, hc, hcf, herr]

theorem runStream_final_append (ls : List StreamLine) (st : ReadState)
    (h : ∀ l ∈ ls, noTerminalContent l = true) :
    (runStream st ls).finalContent = st.finalContent ++ deltaConcat ls := by
  induction ls generalizing st with
  | nil => simp [runStream, deltaConcat]
  | cons l ls ih =>
    have hl : noTerminalContent l = true := h l (List.mem_cons_self l ls)
    have hls : ∀ x ∈ ls, noTerminalContent x = true :=
      fun x hx => h x (List.mem_cons_of_mem l hx)
    show (runStream (processLine st l) ls).finalContent = _
    rw [ih (processLine st l) hls, processLine_finalContent st l hl, deltaConcat,
      String.append_assoc]

/-- C2: over a stream with no `content`, `content_final` or `error` event,
the reader's accumulated final content is the concatenation of the
`content_delta` payloads in arrival order, and the assistant message
appended at stream end is that concatenation, or the fixed fallback text
when it is empty. -/
theorem stream_delta_concat (ls : List StreamLine)
    (h : ∀ l ∈ ls, noTerminalContent l = true) :
    (runStream initialReadState ls).finalContent = deltaConcat ls ∧
    finalAssistantContent ls =
      (if deltaConcat ls = "" then "No response received from server."
       else deltaConcat ls) := by
  have h1 := runStream_final_append ls initialReadState h
  have h2 : (runStream initialReadState ls).finalContent = deltaConcat ls := by
    simpa [initialReadState] using h1
  refine ⟨h2, ?_⟩
  have h3 : finalAssistantContent ls =
      (if deltaConcat ls ≠ "" then deltaConcat ls
       else "No response received from server.") := by
    simp only [finalAssistantContent, h2]
  rw [h3]
  by_cases hd : deltaConcat ls = "" <;> simp [hd]

theorem stream_delta_concat_witness :
    (runStream initialReadState sampleStream).finalContent = deltaConcat sampleStream ∧
    finalAssistantContent sampleStream =
      (if deltaConcat sampleStream = "" then "No response received from server."
       else deltaConcat sampleStream) :=
  stream_delta_concat sampleStream (by decide)

/-- C3: Session Memory stays within the 5-Exchange bound: the window's
length after an append is `min (n+1) 5`, hence never exceeds 5, and
appending to a full window drops exactly the oldest Exchange while keeping
the remaining ones unchanged, in order, with the new Exchange last. -/
theorem sessionMemory_bound (mem : List Exchange) (e : Exchange) :
    (appendExchange mem e).length = min (mem.length + 1) memoryLimit ∧
    (appendExchange mem e).length ≤ memoryLimit ∧
    (mem.length = memoryLimit → appendExchange mem e = mem.drop 1 ++ [e]) := by
  have hm : (mem ++ [e]).length = mem.length + 1 := by simp
  have hlen : (appendExchange mem e).length = min (mem.length + 1) memoryLimit := by
    simp only [appendExchange, memoryLimit, hm]
    by_cases hlt : 5 < mem.length + 1
    · rw [if_pos hlt, List.length_drop, hm]
      omega
    · rw [if_neg hlt, hm]
      omega
  refine ⟨hlen, by rw [hlen]; omega, ?_⟩
  intro h5
  have hcond : memoryLimit < (mem ++ [e]).length := by
    rw [hm, h5]
    decide
  simp only [appendExchange]
  rw [if_pos hcond, hm, h5]
  have hone : memoryLimit + 1 - memoryLimit = 1 := by decide
  rw [hone, List.drop_append_of_le_length (by rw [h5]; decide)]

theorem sessionMemory_bound_witness :
    memFull.length = memoryLimit ∧
    appendExchange memFull (sampleExchange 6) = memFull.drop 1 ++ [sampleExchange 6] :=
  ⟨rfl, (sessionMemory_bound memFull (sampleExchange 6)).2.2 rfl⟩

theorem lookupFp_append_self (xs : List ((String × List (String × String)) × String))
    (fp : String × List (String × String)) (v : String)
    (h : lookupFp xs fp = none) : lookupFp (xs ++ [(fp, v)]) fp = some v := by
  induction xs with
  | nil => simp [lookupFp]
  | cons p rest ih =>
    obtain ⟨k, w⟩ := p
    by_cases hk : k = fp
    · simp [lookupFp, hk] at h
    · simp only [lookupFp, List.cons_append, if_neg hk] at h ⊢
      exact ih h

/-- C4: within one session, a second issuance of a non-mutating tool call
with the same fingerprint is answered from the Fingerprint Cache and does
not invoke the Tool Gateway (state, including the gateway log, is
untouched); a mutating tool call always goes to the gateway with a result
independent of the cache contents, which it neither reads nor writes. -/
theorem fingerprintCache_spec (gateway : String → List (String × String) → String)
    (t : ToolMeta) (a1 a2 : List (String × String)) (st : CacheState)
    (c : List ((String × List (String × String)) × String))
    (log : List (String × List (String × String))) :
    (t.mutating = false → canonArgs a2 = canonArgs a1 →
      dispatchTool gateway t a2 (dispatchTool gateway t a1 st).2 =
        ((dispatchTool gateway t a1 st).1, (dispatchTool gateway t a1 st).2)) ∧
    (t.mutating = true →
      dispatchTool gateway t a1 ⟨c, log⟩ =
        (gateway t.name a1, ⟨c, log ++ [(t.name, canonArgs a1)]⟩)) := by
  constructor
  · intro hro hfp
    simp only [dispatchTool, hro, hfp, Bool.false_eq_true, if_false]
    cases hl : lookupFp st.cache (t.name, canonArgs a1) with
    | some r => simp [hl]
    | none => simp [hl, lookupFp_append_self st.cache (t.name, canonArgs a1)
        (gateway t.name a1) hl]
  · intro hmut
    simp [dispatchTool, hmut]

theorem fingerprintCache_spec_witness :
    (dispatchTool gateway0 toolRead argsTop
        (dispatchTool gateway0 toolRead argsTop cache0).2 =
      ((dispatchTool gateway0 toolRead argsTop cache0).1,
       (dispatchTool gateway0 toolRead argsTop cache0).2)) ∧
    dispatchTool gateway0 toolWrite argsTop ⟨[], []⟩ =
      (gateway0 toolWrite.name argsTop, ⟨[], [] ++ [(toolWrite.name, canonArgs argsTop)]⟩) := by
  constructor
  · exact (fingerprintCache_spec gateway0 toolRead argsTop argsTop cache0 [] []).1 rfl rfl
  · exact (fingerprintCache_spec gateway0 toolWrite argsTop argsTop cache0 [] []).2 rfl

/-- C5: when an array result is longer than the row threshold, the rendered
output opens with a summary line stating the array's true total element
count, and the table below it has exactly `threshold` rows, namely the
first `threshold` elements in order. -/
theorem formatter_large (threshold : Nat) (rows : List (List (String × String)))
    (h : threshold < rows.length) :
    (formatResult threshold rows).head? =
      some ("Found " ++ toString rows.length ++ " items, showing top " ++
        toString threshold) ∧
    (formatResult threshold rows).tail.length = threshold ∧
    (∀ i, i < threshold →
      (formatResult threshold rows).tail[i]? = (rows[i]?).map renderRow) := by
  refine ⟨?_, ?_, ?_⟩
  · simp [formatResult, h]
  · simp only [formatResult, if_pos h, List.tail_cons, List.length_map,
      List.length_take]
    omega
  · intro i hi
    simp only [formatResult, if_pos h, List.tail_cons]
    rw [List.getElem?_map, List.getElem?_take_of_lt hi]

theorem formatter_large_witness :
    defaultRowThreshold < rows11.length ∧
    (formatResult defaultRowThreshold rows11).head? =
      some ("Found " ++ toString rows11.length ++ " items, showing top " ++
        toString defaultRowThreshold) ∧
    (formatResult defaultRowThreshold rows11).tail.length = defaultRowThreshold := by
  refine ⟨by decide, ?_, ?_⟩
  · exact (formatter_large defaultRowThreshold rows11 (by decide)).1
  · exact (formatter_large defaultRowThreshold rows11 (by decide)).2.1

theorem toolEvents_nonterminal (names : List String) :
    ∀ x ∈ toolEvents names, isTerminal x = false := by
  induction names with
  | nil => simp [toolEvents]
  | cons n ns ih =>
    intro x hx
    have : toolEvents (n :: ns) =
        OrchEvent.toolCall n :: OrchEvent.toolResult n :: toolEvents ns := rfl
    rw [this] at hx
    rcases List.mem_cons.mp hx with h | hx2
    · simp [h, isTerminal]
    · rcases List.mem_cons.mp hx2 with h | h
      · simp [h, isTerminal]
      · exact ih x h

theorem runRounds_shape (decideFn : Nat → Decision) (fuel round : Nat) :
    ∃ pre e, runRounds decideFn fuel round = pre ++ [e] ∧
      isTerminal e = true ∧ ∀ x ∈ pre, isTerminal x = false := by
  induction fuel generalizing round with
  | zero => exact ⟨[], OrchEvent.errorEv "Could not complete the request.", rfl, rfl, by simp⟩
  | succ f ih =>
    cases hd : decideFn round with
    | finalText t =>
      exact ⟨[], OrchEvent.contentFinal t, by simp [runRounds, hd], rfl, by simp⟩
    | failure =>
      exact ⟨[], OrchEvent.errorEv "The model could not produce a decision.",
        by simp [runRounds, hd], rfl, by simp⟩
    | toolCalls names =>
      obtain ⟨pre, e, heq, hte, hpre⟩ := ih (round + 1)
      refine ⟨toolEvents names ++ pre, e, ?_, hte, ?_⟩
      · simp only [runRounds, hd, heq, List.append_assoc]
      · intro x hx
        rcases List.mem_append.mp hx with h | h
        · exact toolEvents_nonterminal names x h
        · exact hpre x h

/-- C1: every turn's streamed event sequence ends in exactly one terminal
event — a `content_final` or an `error` — with every earlier event
non-terminal and nothing after it. -/
theorem turn_single_terminal (ambiguous alreadyAsked : Bool)
    (decideFn : Nat → Decision) (maxRounds : Nat) :
    ∃ pre e, runTurn ambiguous alreadyAsked decideFn maxRounds = pre ++ [e] ∧
      isTerminal e = true ∧ ∀ x ∈ pre, isTerminal x = false := by
  unfold runTurn
  split
  · exact ⟨[], OrchEvent.contentFinal "Could you clarify your request?", rfl, rfl, by simp⟩
  · obtain ⟨pre, e, heq, hte, hpre⟩ := runRounds_shape decideFn maxRounds 0
    refine ⟨OrchEvent.status "Thinking..." :: pre, e, by rw [heq, List.cons_append], hte, ?_⟩
    intro x hx
    rcases List.mem_cons.mp hx with h | h
    · simp [h, isTerminal]
    · exact hpre x h

theorem turn_single_terminal_witness :
    ∃ pre e, runTurn false false (fun _ => Decision.finalText "hi") 6 = pre ++ [e] ∧
      isTerminal e = true ∧ ∀ x ∈ pre, isTerminal x = false :=
  turn_single_terminal false false (fun _ => Decision.finalText "hi") 6

theorem classifyTurn_asked (a : Bool) :
    classifyTurn a true = (TurnKind.answer, false) := by
  cases a <;> rfl

theorem clarify_implies_flag (a asked : Bool)
    (h : (classifyTurn a asked).1 = TurnKind.clarify) :
    (classifyTurn a asked).2 = true := by
  cases a <;> cases asked <;> simp_all [classifyTurn]

theorem runTurnSeq_noConsec (ambs : List Bool) (asked : Bool) :
    noConsecutiveClarify (runTurnSeq asked ambs) = true := by
  induction ambs generalizing asked with
  | nil => rfl
  | cons a as ih =>
    cases as with
    | nil => cases a <;> cases asked <;> rfl
    | cons b bs =>
      have hih := ih (classifyTurn a asked).2
      rw [runTurnSeq] at hih
      rw [runTurnSeq, runTurnSeq, noConsecutiveClarify, Bool.and_eq_true]
      refine ⟨?_, hih⟩
      by_cases hcl : (classifyTurn a asked).1 = TurnKind.clarify
      · have h2 := clarify_implies_flag a asked hcl
        rw [h2, classifyTurn_asked]
        simp [isClarify]
      · have : isClarify (classifyTurn a asked).1 = false := by
          cases hfst : (classifyTurn a asked).1
          · exact absurd hfst hcl
          · rfl
        simp [this]

/-- C7: at most one clarifying question per ambiguous request: the turn
kinds of any session never contain two consecutive clarification turns, and
once a clarification was asked the next message is always processed to an
answer (with the asked-flag cleared), however ambiguous it still is. -/
theorem clarification_ask_once (ambs : List Bool) (asked : Bool) :
    noConsecutiveClarify (runTurnSeq asked ambs) = true ∧
    (∀ a, classifyTurn a true = (TurnKind.answer, false)) :=
  ⟨runTurnSeq_noConsec ambs asked, classifyTurn_asked⟩

theorem clarification_ask_once_witness :
    noConsecutiveClarify (runTurnSeq false [true, true, true]) = true ∧
    (∀ a, classifyTurn a true = (TurnKind.answer, false)) :=
  clarification_ask_once [true, true, true] false

/-! ### Character-level lemmas for `cleanLLMResponse` -/

theorem lcAscii_low (a : Char) (h : lowAlpha a = true) : lcAscii a = a := by
  have h' : ¬(('A' ≤ a && a ≤ 'Z') = true) := by
    intro hc
    simp only [lowAlpha, Bool.and_eq_true, decide_eq_true_eq] at hc h
    exact absurd (le_trans h.1 hc.2) (by decide)
  simp only [lcAscii, if_neg h']

theorem wordChar_of_lc (c a : Char) (ha : lowAlpha a = true)
    (h : lcAscii c = lcAscii a) : wordChar c = true := by
  rw [lcAscii_low a ha] at h
  by_cases hc : ('A' ≤ c && c ≤ 'Z') = true
  · simp [wordChar, hc]
  · have hca : c = a := by simpa [lcAscii, hc] using h
    subst hca
    simp only [lowAlpha, Bool.and_eq_true] at ha
    simp [wordChar, ha.1, ha.2]

theorem not_word_of_white (c : Char) (h : jsWhite c = true) : wordChar c = false := by
  rw [Bool.eq_false_iff]
  intro hw
  simp only [jsWhite, Bool.or_eq_true, Bool.and_eq_true, decide_eq_true_eq,
    or_assoc] at h
  simp only [wordChar, Bool.or_eq_true, Bool.and_eq_true, decide_eq_true_eq,
    or_assoc] at hw
  rcases hw with ⟨ha, hb⟩ | ⟨ha, hb⟩ | ⟨ha, hb⟩ | ha
  · rcases h with h|h|h|h|h|h|h|h|⟨h1,h2⟩|h|h|h|h|h|h
    all_goals first
      | (subst h; revert ha hb; decide)
      | (exact absurd (le_trans h1 hb) (by decide))
  · rcases h with h|h|h|h|h|h|h|h|⟨h1,h2⟩|h|h|h|h|h|h
    all_goals first
      | (subst h; revert ha hb; decide)
      | (exact absurd (le_trans h1 hb) (by decide))
  · rcases h with h|h|h|h|h|h|h|h|⟨h1,h2⟩|h|h|h|h|h|h
    all_goals first
      | (subst h; revert ha hb; decide)
      | (exact absurd (le_trans h1 hb) (by decide))
  · subst ha
    revert h
    decide

/-! ### Pattern-matching lemmas -/

theorem ciPref_length (m l : List Char) (h : ciPref m l = true) :
    m.length ≤ l.length := by
  induction m generalizing l with
  | nil => simp
  | cons a as ih =>
    cases l with
    | nil => simp [ciPref] at h
    | cons c cs =>
      simp only [ciPref, Bool.and_eq_true] at h
      simpa using ih cs h.2

theorem ciPref_append (m l w : List Char) (h : ciPref m l = true) :
    ciPref m (l ++ w) = true := by
  induction m generalizing l with
  | nil => rfl
  | cons a as ih =>
    cases l with
    | nil => simp [ciPref] at h
    | cons c cs =>
      simp only [ciPref, Bool.and_eq_true] at h
      simp only [List.cons_append, ciPref, Bool.and_eq_true]
      exact ⟨h.1, ih cs h.2⟩

theorem ciPref_head (a : Char) (as : List Char) (c : Char) (cs : List Char)
    (h : ciPref (a :: as) (c :: cs) = true) :
    lcAscii c = lcAscii a ∧ ciPref as cs = true := by
  simpa only [ciPref, Bool.and_eq_true, decide_eq_true_eq] using h

theorem ciPref_false_of_nonword (m : List Char) (hm : m.all lowAlpha = true)
    (hne : m ≠ []) (c : Char) (l : List Char) (hc : wordChar c = false) :
    ciPref m (c :: l) = false := by
  cases m with
  | nil => exact absurd rfl hne
  | cons a as =>
    simp only [List.all_cons, Bool.and_eq_true] at hm
    by_cases he : lcAscii c = lcAscii a
    · exact absurd (wordChar_of_lc c a hm.1 he) (by simp [hc])
    · simp [ciPref, he]

theorem matchAt_none_iff (l : List Char) :
    matchAt l = none ↔
      ((ciPref mAnalysis l && headBoundary (l.drop 17)) = false ∧
       (ciPref mFinal l && headBoundary (l.drop 14)) = false ∧
       (ciPref mThinkingMarker l && headBoundary (l.drop 17)) = false) := by
  unfold matchAt
  split_ifs with h1 h2 h3 <;> simp_all

theorem matchAt_none_of_nonword (c : Char) (l : List Char)
    (hc : wordChar c = false) : matchAt (c :: l) = none := by
  have h1 := ciPref_false_of_nonword mAnalysis (by decide) (by decide) c l hc
  have h2 := ciPref_false_of_nonword mFinal (by decide) (by decide) c l hc
  have h3 := ciPref_false_of_nonword mThinkingMarker (by decide) (by decide) c l hc
  rw [matchAt_none_iff]
  simp [h1, h2, h3]

theorem matchAt_inv (l : List Char) (n : Nat) (lastc : Char)
    (h : matchAt l = some (n, lastc)) :
    ∃ m : List Char, m.all lowAlpha = true ∧ m ≠ [] ∧ m.length = n ∧
      ciPref m l = true ∧ headBoundary (l.drop n) = true ∧
      wordChar lastc = true := by
  unfold matchAt at h
  split_ifs at h with h1 h2 h3
  · simp only [Option.some.injEq, Prod.mk.injEq] at h
    obtain ⟨hn, hc⟩ := h
    subst hn; subst hc
    rw [Bool.and_eq_true] at h1
    exact ⟨mAnalysis, by decide, by decide, by decide, h1.1, h1.2, by decide⟩
  · simp only [Option.some.injEq, Prod.mk.injEq] at h
    obtain ⟨hn, hc⟩ := h
    subst hn; subst hc
    rw [Bool.and_eq_true] at h2
    exact ⟨mFinal, by decide, by decide, by decide, h2.1, h2.2, by decide⟩
  · simp only [Option.some.injEq, Prod.mk.injEq] at h
    obtain ⟨hn, hc⟩ := h
    subst hn; subst hc
    rw [Bool.and_eq_true] at h3
    exact ⟨mThinkingMarker, by decide, by decide, by decide, h3.1, h3.2, by decide⟩

/-! ### Occurrence lemmas -/

theorem containsSeq_nil_pat (w : List Char) : containsSeq [] w = true := by
  cases w <;> simp [containsSeq, List.isPrefixOf]

theorem containsSeq_cons_of (p : List Char) (c : Char) (cs : List Char)
    (h : containsSeq p cs = true) : containsSeq p (c :: cs) = true := by
  simp [containsSeq, h]

theorem containsSeq_of_isPrefixOf (p l : List Char) (h : p.isPrefixOf l = true) :
    containsSeq p l = true := by
  cases l with
  | nil =>
    cases p with
    | nil => rfl
    | cons a as => simp [List.isPrefixOf] at h
  | cons c cs => simp [containsSeq, h]

theorem containsSeq_of_suffix (p s l : List Char) (hs : s <:+ l)
    (h : containsSeq p s = true) : containsSeq p l = true := by
  obtain ⟨r, rfl⟩ := hs
  induction r with
  | nil => simpa using h
  | cons a r ih => exact containsSeq_cons_of p a _ ih

theorem isPrefixOf_append_ext (p s w : List Char) (h : p.isPrefixOf s = true) :
    p.isPrefixOf (s ++ w) = true := by
  rw [ List.isPrefixOf_iff_prefix] at h ⊢
  exact h.trans (List.prefix_append s w)

theorem containsSeq_append_left (p s w : List Char) (h : containsSeq p s = true) :
    containsSeq p (s ++ w) = true := by
  induction s with
  | nil =>
    have hp : p = [] := by
      cases p with
      | nil => rfl
      | cons a as => simp [containsSeq, List.isEmpty] at h
    subst hp
    exact containsSeq_nil_pat w
  | cons c s ih =>
    simp only [containsSeq, Bool.or_eq_true] at h
    rcases h with h | h
    · have := isPrefixOf_append_ext p (c :: s) w h
      rw [List.cons_append] at this
      simp [containsSeq, this]
    · rw [List.cons_append]
      exact containsSeq_cons_of p c _ (ih h)

theorem afterLast_no_occurrence (p : List Char) (hne : p ≠ []) (l : List Char) :
    containsSeq p (afterLast p l) = false := by
  induction l with
  | nil =>
    cases p with
    | nil => exact absurd rfl hne
    | cons a as => simp [afterLast, containsSeq, List.isEmpty]
  | cons c cs ih =>
    rw [afterLast]
    by_cases h1 : containsSeq p cs = true
    · rw [if_pos h1]
      exact ih
    · rw [if_neg h1]
      by_cases h2 : p.isPrefixOf (c :: cs) = true
      · rw [if_pos h2]
        cases p with
        | nil => exact absurd rfl hne
        | cons a as =>
          rw [Bool.eq_false_iff]
          intro hc
          have hsuf : List.drop (a :: as).length (c :: cs) <:+ cs := by
            simp only [List.length_cons, List.drop_succ_cons]
            exact List.drop_suffix as.length cs
          exact h1 (containsSeq_of_suffix (a :: as) _ cs hsuf hc)
      · rw [if_neg h2]
        simp [containsSeq, h1, h2]

theorem afterLast_eq_self (p l : List Char) (h : containsSeq p l = false) :
    afterLast p l = l := by
  cases l with
  | nil => rfl
  | cons c cs =>
    simp only [containsSeq, Bool.or_eq_false_iff] at h
    rw [afterLast, if_neg (by simp [h.2]), if_neg (by simp [h.1])]

/-! ### Scanner unfolding lemmas -/

theorem removeMarkers_nil (prev : Option Char) : removeMarkers prev [] = [] := by
  rw [removeMarkers]

theorem removeMarkers_cons_match (prev : Option Char) (c : Char) (cs : List Char)
    (n : Nat) (lastc : Char) (hb : boundary prev = true)
    (hm : matchAt (c :: cs) = some (n, lastc)) :
    removeMarkers prev (c :: cs) = removeMarkers (some lastc) (cs.drop (n - 1)) := by
  rw [removeMarkers, if_pos hb, hm]

theorem removeMarkers_cons_keep (prev : Option Char) (c : Char) (cs : List Char)
    (hb : boundary prev = true) (hm : matchAt (c :: cs) = none) :
    removeMarkers prev (c :: cs) = c :: removeMarkers (some c) cs := by
  rw [removeMarkers, if_pos hb, hm]

theorem removeMarkers_cons_noB (prev : Option Char) (c : Char) (cs : List Char)
    (hb : boundary prev = false) :
    removeMarkers prev (c :: cs) = c :: removeMarkers (some c) cs := by
  rw [removeMarkers, if_neg (by simp [hb])]

theorem removeMarkers_word_cons (c : Char) (hc : wordChar c = true) (e : Char)
    (es : List Char) :
    removeMarkers (some c) (e :: es) = e :: removeMarkers (some e) es :=
  removeMarkers_cons_noB (some c) e es (by simp [boundary, hc])

theorem pref_removeMarkers (q : List Char) (hq : q.all wordChar = true) :
    ∀ (c : Char), wordChar c = true → ∀ cs,
      q.isPrefixOf (removeMarkers (some c) cs) = true → q.isPrefixOf cs = true := by
  induction q with
  | nil => intro c _ cs _; cases cs <;> rfl
  | cons d q' ih =>
    intro c hc cs h
    cases cs with
    | nil =>
      rw [removeMarkers_nil] at h
      simp [List.isPrefixOf] at h
    | cons e es =>
      rw [removeMarkers_word_cons c hc] at h
      simp only [List.all_cons, Bool.and_eq_true] at hq
      simp only [List.isPrefixOf, Bool.and_eq_true, beq_iff_eq] at h ⊢
      obtain ⟨hde, h2⟩ := h
      subst hde
      exact ⟨rfl, ih hq.2 d hq.1 es h2⟩

/-- An all-word pattern absent from the input cannot occur in the scanner's
output: deletions splice a non-word left context onto a non-word right
context, so no all-word occurrence can be created. -/
theorem removeMarkers_no_pattern (p : List Char) (hp : p.all wordChar = true)
    (hne : p ≠ []) (prev : Option Char) (l : List Char)
    (h : containsSeq p l = false) :
    containsSeq p (removeMarkers prev l) = false := by
  induction prev, l using removeMarkers.induct with
  | case1 q =>
    rw [removeMarkers_nil]
    cases p with
    | nil => exact absurd rfl hne
    | cons a as => simp [containsSeq, List.isEmpty]
  | case2 q c cs hb n lastc hm ih =>
    rw [removeMarkers_cons_match q c cs n lastc hb hm]
    apply ih
    rw [Bool.eq_false_iff]
    intro hc
    simp only [containsSeq, Bool.or_eq_false_iff] at h
    exact absurd (containsSeq_of_suffix p _ cs (List.drop_suffix (n - 1) cs) hc)
      (by simp [h.2])
  | case3 q c cs hb hm ih =>
    rw [removeMarkers_cons_keep q c cs hb hm]
    simp only [containsSeq, Bool.or_eq_false_iff] at h
    have hcs := ih (by simp [h.2])
    rw [Bool.eq_false_iff]
    intro hc
    simp only [containsSeq, Bool.or_eq_true] at hc
    rcases hc with hc | hc
    · cases p with
      | nil => exact absurd rfl hne
      | cons a as =>
        simp only [List.isPrefixOf, Bool.and_eq_true, beq_iff_eq] at hc
        obtain ⟨hac, h2⟩ := hc
        subst hac
        simp only [List.all_cons, Bool.and_eq_true] at hp
        have h3 := pref_removeMarkers as hp.2 a hp.1 cs h2
        have : (a :: as).isPrefixOf (a :: cs) = true := by
          simp [List.isPrefixOf, h3]
        simp [this] at h
    · simp [hc] at hcs
  | case4 q c cs hb ih =>
    rw [removeMarkers_cons_noB q c cs (by simpa using hb)]
    simp only [containsSeq, Bool.or_eq_false_iff] at h
    have hcs := ih (by simp [h.2])
    rw [Bool.eq_false_iff]
    intro hc
    simp only [containsSeq, Bool.or_eq_true] at hc
    rcases hc with hc | hc
    · cases p with
      | nil => exact absurd rfl hne
      | cons a as =>
        simp only [List.isPrefixOf, Bool.and_eq_true, beq_iff_eq] at hc
        obtain ⟨hac, h2⟩ := hc
        subst hac
        simp only [List.all_cons, Bool.and_eq_true] at hp
        have h3 := pref_removeMarkers as hp.2 a hp.1 cs h2
        have : (a :: as).isPrefixOf (a :: cs) = true := by
          simp [List.isPrefixOf, h3]
        simp [this] at h
    · simp [hc] at hcs

/-! ### Match-absence in the scanner's output -/

theorem matchTransfer (m : List Char) :
    m.all lowAlpha = true → ∀ (c : Char), wordChar c = true → ∀ cs : List Char,
      ciPref m (removeMarkers (some c) cs) = true →
      ciPref m cs = true ∧
      (headBoundary ((removeMarkers (some c) cs).drop m.length) = true →
        headBoundary (cs.drop m.length) = true) := by
  induction m with
  | nil =>
    intro _ c hc cs _
    refine ⟨rfl, ?_⟩
    cases cs with
    | nil => rw [removeMarkers_nil]; exact fun h => h
    | cons e es =>
      rw [removeMarkers_word_cons c hc]
      intro hb
      simp only [List.length_nil, List.drop_zero] at hb ⊢
      simpa [headBoundary] using hb
  | cons a m' ih =>
    intro hm c hc cs h
    simp only [List.all_cons, Bool.and_eq_true] at hm
    cases cs with
    | nil => rw [removeMarkers_nil] at h; simp [ciPref] at h
    | cons e es =>
      rw [removeMarkers_word_cons c hc] at h ⊢
      obtain ⟨he, h2⟩ := ciPref_head a m' e _ h
      have hew : wordChar e = true := wordChar_of_lc e a hm.1 he
      have ihr := ih hm.2 e hew es h2
      refine ⟨by simp [ciPref, he, ihr.1], ?_⟩
      intro hb
      simp only [List.length_cons, List.drop_succ_cons] at hb ⊢
      exact ihr.2 hb

theorem condTransfer (m : List Char) (hm : m.all lowAlpha = true) (n : Nat)
    (hn : n = m.length) (c : Char) (hcw : wordChar c = true) (cs : List Char)
    (h : (ciPref m (c :: removeMarkers (some c) cs) &&
          headBoundary ((c :: removeMarkers (some c) cs).drop n)) = true) :
    (ciPref m (c :: cs) && headBoundary ((c :: cs).drop n)) = true := by
  subst hn
  rw [Bool.and_eq_true] at h ⊢
  obtain ⟨h1, h2⟩ := h
  cases m with
  | nil =>
    refine ⟨rfl, ?_⟩
    simpa [headBoundary] using h2
  | cons a m' =>
    simp only [List.all_cons, Bool.and_eq_true] at hm
    obtain ⟨he, hpre⟩ := ciPref_head a m' c _ h1
    have tr := matchTransfer m' hm.2 c hcw cs hpre
    simp only [List.length_cons, List.drop_succ_cons] at h2 ⊢
    exact ⟨by simp [ciPref, he, tr.1], tr.2 h2⟩

theorem matchAt_out_none (c : Char) (cs : List Char)
    (hin : matchAt (c :: cs) = none) :
    matchAt (c :: removeMarkers (some c) cs) = none := by
  by_cases hc : wordChar c = true
  · rw [matchAt_none_iff] at hin ⊢
    refine ⟨?_, ?_, ?_⟩
    · rw [Bool.eq_false_iff]
      intro hcond
      have h := condTransfer mAnalysis (by decide) 17 (by decide) c hc cs hcond
      rw [hin.1] at h
      exact Bool.false_ne_true h
    · rw [Bool.eq_false_iff]
      intro hcond
      have h := condTransfer mFinal (by decide) 14 (by decide) c hc cs hcond
      rw [hin.2.1] at h
      exact Bool.false_ne_true h
    · rw [Bool.eq_false_iff]
      intro hcond
      have h := condTransfer mThinkingMarker (by decide) 17 (by decide) c hc cs hcond
      rw [hin.2.2] at h
      exact Bool.false_ne_true h
  · exact matchAt_none_of_nonword c _ (by simpa using hc)

theorem hasMatch_congr (p p' : Option Char) (hb : boundary p = boundary p')
    (l : List Char) : hasMatch p l = hasMatch p' l := by
  cases l with
  | nil => rfl
  | cons c cs => simp [hasMatch, hb]

/-- The scanner's own output contains no further match: every match is
removed, and removals cannot create new ones. -/
theorem removeMarkers_no_match (prev : Option Char) (l : List Char) :
    hasMatch prev (removeMarkers prev l) = false := by
  induction prev, l using removeMarkers.induct with
  | case1 q => rw [removeMarkers_nil]; rfl
  | case2 q c cs hb n lastc hm ih =>
    rw [removeMarkers_cons_match q c cs n lastc hb hm]
    obtain ⟨m, hmlow, hmne, hmlen, hpref, hbound, hlcw⟩ := matchAt_inv _ n lastc hm
    have hn1 : 1 ≤ n := by
      cases m with
      | nil => exact absurd rfl hmne
      | cons a as => rw [← hmlen]; simp
    have hrest : (c :: cs).drop n = cs.drop (n - 1) := by
      cases n with
      | zero => omega
      | succ k => simp [List.drop_succ_cons]
    rw [hrest] at hbound
    cases hds : cs.drop (n - 1) with
    | nil => rw [removeMarkers_nil]; rfl
    | cons r rs =>
      rw [hds] at hbound
      rw [hds] at ih
      have hrw : wordChar r = false := by simpa [headBoundary] using hbound
      rw [removeMarkers_cons_noB (some lastc) r rs (by simp [boundary, hlcw])] at ih ⊢
      simp only [hasMatch, matchAt_none_of_nonword r _ hrw, Option.isSome_none,
        Bool.and_false, Bool.false_or] at ih ⊢
      exact ih
  | case3 q c cs hb hm ih =>
    rw [removeMarkers_cons_keep q c cs hb hm]
    have hout := matchAt_out_none c cs hm
    simp only [hasMatch, hout, Option.isSome_none, Bool.and_false, Bool.false_or]
    exact ih
  | case4 q c cs hb ih =>
    rw [removeMarkers_cons_noB q c cs (by simpa using hb)]
    simp only [hasMatch, Bool.or_eq_false_iff]
    refine ⟨?_, ih⟩
    simp [show boundary q = false from by simpa using hb]

/-! ### Newline-squashing lemmas -/

theorem runOK_cons_nl (k : Nat) (cs : List Char) :
    runOK k ('\n' :: cs) = (decide (k + 1 ≤ 2) && runOK (k + 1) cs) := by
  simp [runOK]

theorem runOK_cons_ne (k : Nat) (c : Char) (hc : ¬c = '\n') (cs : List Char) :
    runOK k (c :: cs) = runOK 0 cs := by
  simp [runOK, hc]

theorem squashGo_cons_nl (k : Nat) (cs : List Char) :
    squashGo k ('\n' :: cs) = squashGo (k + 1) cs := by
  simp [squashGo]

theorem squashGo_cons_ne (k : Nat) (c : Char) (hc : ¬c = '\n') (cs : List Char) :
    squashGo k (c :: cs) = emitNl k ++ c :: squashGo 0 cs := by
  simp [squashGo, hc]

theorem runOK_le (k' k : Nat) (hk : k' ≤ k) (l : List Char)
    (h : runOK k l = true) : runOK k' l = true := by
  induction l generalizing k' k with
  | nil => rfl
  | cons c cs ih =>
    by_cases hc : c = '\n'
    · subst hc
      rw [runOK_cons_nl] at h ⊢
      simp only [Bool.and_eq_true, decide_eq_true_eq] at h ⊢
      exact ⟨by omega, ih (k' + 1) (k + 1) (by omega) h.2⟩
    · rw [runOK_cons_ne k c hc] at h
      rw [runOK_cons_ne k' c hc]
      exact h

theorem runOK_replicate_cons (m : Nat) (hm : m ≤ 2) (c : Char) (hc : ¬c = '\n')
    (r : List Char) :
    runOK 0 (List.replicate m '\n' ++ c :: r) = runOK 0 r := by
  interval_cases m <;> simp [runOK, hc, List.replicate]

theorem squashGo_runOK (l : List Char) : ∀ k, runOK 0 (squashGo k l) = true := by
  induction l with
  | nil =>
    intro k
    by_cases h3 : 3 ≤ k
    · simp only [squashGo, emitNl, if_pos h3]
      decide
    · have hk : k ≤ 2 := by omega
      interval_cases k <;> decide
  | cons c cs ih =>
    intro k
    by_cases hc : c = '\n'
    · subst hc
      rw [squashGo_cons_nl]
      exact ih (k + 1)
    · rw [squashGo_cons_ne k c hc, emitNl,
        runOK_replicate_cons _ (by split <;> omega) c hc]
      exact ih 0

theorem squashNl_runOK (l : List Char) : runOK 0 (squashNl l) = true :=
  squashGo_runOK l 0

theorem squashGo_eq_self (l : List Char) : ∀ k, k ≤ 2 → runOK k l = true →
    squashGo k l = List.replicate k '\n' ++ l := by
  induction l with
  | nil =>
    intro k hk _
    simp only [squashGo, emitNl, if_neg (by omega : ¬3 ≤ k), List.append_nil]
  | cons c cs ih =>
    intro k hk h
    by_cases hc : c = '\n'
    · subst hc
      rw [runOK_cons_nl] at h
      simp only [Bool.and_eq_true, decide_eq_true_eq] at h
      rw [squashGo_cons_nl, ih (k + 1) h.1 h.2, List.replicate_succ',
        List.append_assoc, List.singleton_append]
    · rw [runOK_cons_ne k c hc] at h
      rw [squashGo_cons_ne k c hc, emitNl, if_neg (by omega : ¬3 ≤ k),
        ih 0 (by omega) h]
      simp

theorem squashNl_eq_self (l : List Char) (h : runOK 0 l = true) :
    squashNl l = l := by
  have h2 := squashGo_eq_self l 0 (by omega) h
  simpa [squashNl] using h2

theorem runOK_append_left (xs ys : List Char) : ∀ k,
    runOK k (xs ++ ys) = true → runOK k xs = true := by
  induction xs with
  | nil => intro k _; rfl
  | cons c cs ih =>
    intro k h
    by_cases hc : c = '\n'
    · subst hc
      rw [List.cons_append, runOK_cons_nl, Bool.and_eq_true] at h
      rw [runOK_cons_nl, Bool.and_eq_true]
      exact ⟨h.1, ih (k + 1) h.2⟩
    · rw [List.cons_append, runOK_cons_ne k c hc] at h
      rw [runOK_cons_ne k c hc]
      exact ih 0 h

theorem runOK_dropWhile (p : Char → Bool) (l : List Char) (h : runOK 0 l = true) :
    runOK 0 (l.dropWhile p) = true := by
  induction l with
  | nil => simpa using h
  | cons c cs ih =>
    rw [List.dropWhile_cons]
    split
    · apply ih
      by_cases hc : c = '\n'
      · subst hc
        rw [runOK_cons_nl, Bool.and_eq_true] at h
        exact runOK_le 0 1 (by omega) cs h.2
      · rw [runOK_cons_ne 0 c hc] at h
        exact h
    · exact h

/-! ### Trim lemmas -/

theorem trimR_append (l : List Char) :
    l = trimR l ++ (l.reverse.takeWhile jsWhite).reverse := by
  calc l = l.reverse.reverse := (List.reverse_reverse l).symm
    _ = (l.reverse.takeWhile jsWhite ++ l.reverse.dropWhile jsWhite).reverse := by
        rw [List.takeWhile_append_dropWhile]
    _ = (l.reverse.dropWhile jsWhite).reverse ++ (l.reverse.takeWhile jsWhite).reverse := by
        rw [List.reverse_append]
    _ = trimR l ++ (l.reverse.takeWhile jsWhite).reverse := rfl

theorem mem_trimR_rest_white (l : List Char) (x : Char)
    (hx : x ∈ (l.reverse.takeWhile jsWhite).reverse) : jsWhite x = true := by
  rw [List.mem_reverse] at hx
  exact List.mem_takeWhile_imp hx

theorem runOK_trimR (l : List Char) (h : runOK 0 l = true) :
    runOK 0 (trimR l) = true := by
  have h2 := trimR_append l
  rw [h2] at h
  exact runOK_append_left _ _ 0 h

theorem runOK_jsTrim (l : List Char) (h : runOK 0 l = true) :
    runOK 0 (jsTrim l) = true :=
  runOK_trimR _ (runOK_dropWhile jsWhite l h)

theorem dropWhile_head_false (p : Char → Bool) (l : List Char) (c : Char)
    (t : List Char) (h : l.dropWhile p = c :: t) : p c = false := by
  induction l with
  | nil => simp at h
  | cons a as ih =>
    rw [List.dropWhile_cons] at h
    split at h
    · exact ih h
    · next hpa =>
        cases h
        simpa using hpa

theorem dropWhile_idem (p : Char → Bool) (l : List Char) :
    (l.dropWhile p).dropWhile p = l.dropWhile p := by
  cases hd : l.dropWhile p with
  | nil => rfl
  | cons c t => simp [List.dropWhile_cons, dropWhile_head_false p l c t hd]

theorem trimR_idem (l : List Char) : trimR (trimR l) = trimR l := by
  unfold trimR
  rw [List.reverse_reverse, dropWhile_idem]

theorem trimL_trimR_trimL (l : List Char) :
    trimL (trimR (trimL l)) = trimR (trimL l) := by
  cases hd : trimR (trimL l) with
  | nil => rfl
  | cons c t =>
    have hw := trimR_append (trimL l)
    rw [hd] at hw
    have hL : trimL l = c :: (t ++ ((trimL l).reverse.takeWhile jsWhite).reverse) := by
      conv_lhs => rw [hw]
      rw [List.cons_append]
    have hc : jsWhite c = false := dropWhile_head_false jsWhite l c _ hL
    simp [trimL, List.dropWhile_cons, hc]

theorem jsTrim_idem (l : List Char) : jsTrim (jsTrim l) = jsTrim l := by
  show trimR (trimL (trimR (trimL l))) = trimR (trimL l)
  rw [trimL_trimR_trimL, trimR_idem]

/-! ### Occurrence and match transfer through newline squashing -/

theorem squashGo_nil_zero : squashGo 0 ([] : List Char) = [] := rfl

theorem emitNl_zero : emitNl 0 = [] := rfl

theorem squashGo_head_nl (es : List Char) : ∀ k, 1 ≤ k →
    ∃ t, squashGo k es = '\n' :: t := by
  induction es with
  | nil =>
    intro k hk
    by_cases h3 : 3 ≤ k
    · exact ⟨['\n'], by simp [squashGo, emitNl, h3, List.replicate_succ]⟩
    · cases k with
      | zero => omega
      | succ j =>
        exact ⟨List.replicate j '\n', by simp [squashGo, emitNl, h3, List.replicate_succ]⟩
  | cons e es ih =>
    intro k hk
    by_cases he : e = '\n'
    · subst he
      obtain ⟨t, ht⟩ := ih (k + 1) (by omega)
      exact ⟨t, by rw [squashGo_cons_nl, ht]⟩
    · by_cases h3 : 3 ≤ k
      · refine ⟨'\n' :: e :: squashGo 0 es, ?_⟩
        rw [squashGo_cons_ne k e he, emitNl, if_pos h3]
        simp [List.replicate_succ]
      · cases k with
        | zero => omega
        | succ j =>
          refine ⟨List.replicate j '\n' ++ e :: squashGo 0 es, ?_⟩
          rw [squashGo_cons_ne _ e he, emitNl, if_neg h3]
          simp [List.replicate_succ]

theorem containsSeq_replicate_false (a : Char) (as : List Char)
    (ha : wordChar a = true) (m : Nat) :
    containsSeq (a :: as) (List.replicate m '\n') = false := by
  have hne : a ≠ '\n' := fun h => by subst h; exact absurd ha (by decide)
  induction m with
  | zero => simp [containsSeq]
  | succ m ih =>
    rw [List.replicate_succ]
    simp only [containsSeq, Bool.or_eq_false_iff]
    refine ⟨?_, ih⟩
    simp [List.isPrefixOf, hne]

theorem containsSeq_replicate_append (a : Char) (as : List Char)
    (ha : wordChar a = true) (m : Nat) (r : List Char) :
    containsSeq (a :: as) (List.replicate m '\n' ++ r) = containsSeq (a :: as) r := by
  have hne : a ≠ '\n' := fun h => by subst h; exact absurd ha (by decide)
  induction m with
  | zero => simp
  | succ m ih =>
    rw [List.replicate_succ, List.cons_append]
    simp only [containsSeq]
    rw [ih]
    simp [List.isPrefixOf, hne]

theorem pref_squashGo (q : List Char) (hq : q.all wordChar = true) :
    ∀ cs, q.isPrefixOf (squashGo 0 cs) = true → q.isPrefixOf cs = true := by
  induction q with
  | nil => intro cs _; cases cs <;> rfl
  | cons d q' ih =>
    intro cs h
    simp only [List.all_cons, Bool.and_eq_true] at hq
    cases cs with
    | nil =>
      rw [squashGo_nil_zero] at h
      simp [List.isPrefixOf] at h
    | cons e es =>
      by_cases he : e = '\n'
      · subst he
        rw [squashGo_cons_nl] at h
        obtain ⟨t, ht⟩ := squashGo_head_nl es 1 (by omega)
        rw [ht] at h
        have hne : d ≠ '\n' := fun hh => by subst hh; exact absurd hq.1 (by decide)
        simp [List.isPrefixOf, hne] at h
      · rw [squashGo_cons_ne 0 e he, emitNl_zero, List.nil_append] at h
        simp only [List.isPrefixOf, Bool.and_eq_true, beq_iff_eq] at h ⊢
        exact ⟨h.1, ih hq.2 es h.2⟩

theorem containsSeq_squashGo_rev (p : List Char) (hp : p.all wordChar = true)
    (hne : p ≠ []) (cs : List Char) : ∀ k : Nat,
    containsSeq p (squashGo k cs) = true → containsSeq p cs = true := by
  induction cs with
  | nil =>
    intro k h
    cases p with
    | nil => exact absurd rfl hne
    | cons a as =>
      simp only [List.all_cons, Bool.and_eq_true] at hp
      rw [show squashGo k ([] : List Char) = emitNl k from rfl, emitNl,
        containsSeq_replicate_false a as hp.1] at h
      simp at h
  | cons e es ih =>
    intro k h
    by_cases he : e = '\n'
    · subst he
      rw [squashGo_cons_nl] at h
      exact containsSeq_cons_of p '\n' es (ih (k + 1) h)
    · rw [squashGo_cons_ne k e he, emitNl] at h
      cases p with
      | nil => exact absurd rfl hne
      | cons a as =>
        simp only [List.all_cons, Bool.and_eq_true] at hp
        rw [containsSeq_replicate_append a as hp.1] at h
        simp only [containsSeq, Bool.or_eq_true] at h ⊢
        rcases h with h | h
        · left
          simp only [List.isPrefixOf, Bool.and_eq_true, beq_iff_eq] at h ⊢
          exact ⟨h.1, pref_squashGo as hp.2 es h.2⟩
        · right
          exact ih 0 h

theorem hasMatch_replicate_false (prev : Option Char) (m : Nat) :
    hasMatch prev (List.replicate m '\n') = false := by
  induction m generalizing prev with
  | zero => rfl
  | succ m ih =>
    rw [List.replicate_succ]
    simp only [hasMatch, matchAt_none_of_nonword '\n' _ (by decide),
      Option.isSome_none, Bool.and_false, Bool.false_or]
    exact ih (some '\n')

theorem hasMatch_replicate_append (m : Nat) (r : List Char) (prev : Option Char) :
    hasMatch prev (List.replicate m '\n' ++ r) =
      (if m = 0 then hasMatch prev r else hasMatch (some '\n') r) := by
  induction m generalizing prev with
  | zero => simp
  | succ m ih =>
    rw [List.replicate_succ, List.cons_append]
    simp only [hasMatch, matchAt_none_of_nonword '\n' _ (by decide),
      Option.isSome_none, Bool.and_false, Bool.false_or]
    rw [ih (some '\n'), if_neg (Nat.succ_ne_zero m)]
    split <;> rfl

theorem matchTransferSq (m : List Char) :
    m.all lowAlpha = true → ∀ cs : List Char,
      ciPref m (squashGo 0 cs) = true →
      ciPref m cs = true ∧
      (headBoundary ((squashGo 0 cs).drop m.length) = true →
        headBoundary (cs.drop m.length) = true) := by
  induction m with
  | nil =>
    intro _ cs _
    refine ⟨rfl, ?_⟩
    intro hb
    simp only [List.length_nil, List.drop_zero] at hb ⊢
    cases cs with
    | nil => rw [squashGo_nil_zero] at hb; exact hb
    | cons e es =>
      by_cases he : e = '\n'
      · subst he
        show (!wordChar '\n') = true
        decide
      · rw [squashGo_cons_ne 0 e he, emitNl_zero, List.nil_append] at hb
        simpa [headBoundary] using hb
  | cons a m' ih =>
    intro hm cs h
    simp only [List.all_cons, Bool.and_eq_true] at hm
    cases cs with
    | nil =>
      rw [squashGo_nil_zero] at h
      simp [ciPref] at h
    | cons e es =>
      by_cases he : e = '\n'
      · subst he
        rw [squashGo_cons_nl] at h
        obtain ⟨t, ht⟩ := squashGo_head_nl es 1 (by omega)
        rw [ht] at h
        obtain ⟨h1, -⟩ := ciPref_head a m' '\n' t h
        exact absurd (wordChar_of_lc '\n' a hm.1 h1) (by decide)
      · rw [squashGo_cons_ne 0 e he, emitNl_zero, List.nil_append] at h
        obtain ⟨h1, h2⟩ := ciPref_head a m' e _ h
        have ihr := ih hm.2 es h2
        refine ⟨by simp [ciPref, h1, ihr.1], ?_⟩
        intro hb
        rw [squashGo_cons_ne 0 e he, emitNl_zero, List.nil_append] at hb
        simp only [List.length_cons, List.drop_succ_cons] at hb ⊢
        exact ihr.2 hb

theorem condTransferSq (m : List Char) (hm : m.all lowAlpha = true) (n : Nat)
    (hn : n = m.length) (c : Char) (cs : List Char)
    (h : (ciPref m (c :: squashGo 0 cs) &&
          headBoundary ((c :: squashGo 0 cs).drop n)) = true) :
    (ciPref m (c :: cs) && headBoundary ((c :: cs).drop n)) = true := by
  subst hn
  rw [Bool.and_eq_true] at h ⊢
  obtain ⟨h1, h2⟩ := h
  cases m with
  | nil =>
    refine ⟨rfl, ?_⟩
    simpa [headBoundary] using h2
  | cons a m' =>
    simp only [List.all_cons, Bool.and_eq_true] at hm
    obtain ⟨he, hpre⟩ := ciPref_head a m' c _ h1
    have tr := matchTransferSq m' hm.2 cs hpre
    simp only [List.length_cons, List.drop_succ_cons] at h2 ⊢
    exact ⟨by simp [ciPref, he, tr.1], tr.2 h2⟩

theorem matchAt_sq_none (c : Char) (cs : List Char)
    (hin : matchAt (c :: cs) = none) :
    matchAt (c :: squashGo 0 cs) = none := by
  rw [matchAt_none_iff] at hin ⊢
  refine ⟨?_, ?_, ?_⟩
  · rw [Bool.eq_false_iff]
    intro hcond
    have h := condTransferSq mAnalysis (by decide) 17 (by decide) c cs hcond
    rw [hin.1] at h
    exact Bool.false_ne_true h
  · rw [Bool.eq_false_iff]
    intro hcond
    have h := condTransferSq mFinal (by decide) 14 (by decide) c cs hcond
    rw [hin.2.1] at h
    exact Bool.false_ne_true h
  · rw [Bool.eq_false_iff]
    intro hcond
    have h := condTransferSq mThinkingMarker (by decide) 17 (by decide) c cs hcond
    rw [hin.2.2] at h
    exact Bool.false_ne_true h

theorem hasMatch_squashGo_rev (cs : List Char) : ∀ (k : Nat) (prev : Option Char),
    hasMatch prev (squashGo k cs) = true →
    hasMatch prev (List.replicate k '\n' ++ cs) = true := by
  induction cs with
  | nil =>
    intro k prev h
    rw [show squashGo k ([] : List Char) = emitNl k from rfl, emitNl,
      hasMatch_replicate_false prev _] at h
    exact absurd h (by simp)
  | cons e es ih =>
    intro k prev h
    by_cases he : e = '\n'
    · subst he
      rw [squashGo_cons_nl] at h
      have h2 := ih (k + 1) prev h
      rw [List.replicate_succ', List.append_assoc, List.singleton_append] at h2
      exact h2
    · have hstep : ∀ q : Option Char, hasMatch q (e :: squashGo 0 es) = true →
          hasMatch q (e :: es) = true := by
        intro q hq
        simp only [hasMatch, Bool.or_eq_true] at hq ⊢
        rcases hq with hq | hq
        · left
          rw [Bool.and_eq_true] at hq ⊢
          refine ⟨hq.1, ?_⟩
          by_cases hn : matchAt (e :: es) = none
          · have h3 := matchAt_sq_none e es hn
            rw [h3] at hq
            exact absurd hq.2 (by simp)
          · rwa [← Option.ne_none_iff_isSome]
        · right
          have h3 := ih 0 (some e) hq
          simpa using h3
      rw [squashGo_cons_ne k e he, emitNl, hasMatch_replicate_append] at h
      rw [hasMatch_replicate_append]
      have hmk : ((if 3 ≤ k then 2 else k) = 0) ↔ (k = 0) := by split <;> omega
      rw [if_congr hmk rfl rfl] at h
      by_cases hk : k = 0
      · rw [if_pos hk] at h ⊢
        exact hstep prev h
      · rw [if_neg hk] at h ⊢
        exact hstep (some '\n') h

theorem hasMatch_squash_rev (u : List Char)
    (h : hasMatch none (squashNl u) = true) : hasMatch none u = true := by
  have h2 := hasMatch_squashGo_rev u 0 none h
  simpa using h2

/-! ### Occurrence and match transfer through trimming -/

theorem containsSeq_trimL_rev (p u : List Char)
    (h : containsSeq p (trimL u) = true) : containsSeq p u = true :=
  containsSeq_of_suffix p (trimL u) u (List.dropWhile_suffix jsWhite) h

theorem containsSeq_trimR_rev (p u : List Char)
    (h : containsSeq p (trimR u) = true) : containsSeq p u = true := by
  rw [trimR_append u]
  exact containsSeq_append_left p (trimR u) _ h

theorem containsSeq_jsTrim_rev (p u : List Char)
    (h : containsSeq p (jsTrim u) = true) : containsSeq p u = true :=
  containsSeq_trimL_rev p u (containsSeq_trimR_rev p (trimL u) h)

theorem cond_append_white (m : List Char) (n : Nat) (hn : n = m.length)
    (w l : List Char) (hw : ∀ x ∈ w, jsWhite x = true)
    (h : (ciPref m l && headBoundary (l.drop n)) = true) :
    (ciPref m (l ++ w) && headBoundary ((l ++ w).drop n)) = true := by
  subst hn
  rw [Bool.and_eq_true] at h ⊢
  obtain ⟨h1, h2⟩ := h
  have hlen := ciPref_length m l h1
  refine ⟨ciPref_append m l w h1, ?_⟩
  rw [List.drop_append_of_le_length hlen]
  cases hx : l.drop m.length with
  | nil =>
    simp only [List.nil_append]
    cases w with
    | nil => rfl
    | cons y ys =>
      have hy := hw y (by simp)
      simp [headBoundary, not_word_of_white y hy]
  | cons y ys =>
    rw [hx] at h2
    simpa [headBoundary, List.cons_append] using h2

theorem matchAt_append_white (l w : List Char) (hw : ∀ x ∈ w, jsWhite x = true)
    (h : matchAt (l ++ w) = none) : matchAt l = none := by
  rw [matchAt_none_iff] at h ⊢
  refine ⟨?_, ?_, ?_⟩
  · rw [Bool.eq_false_iff]
    intro hcond
    have h2 := cond_append_white mAnalysis 17 (by decide) w l hw hcond
    rw [h.1] at h2
    exact Bool.false_ne_true h2
  · rw [Bool.eq_false_iff]
    intro hcond
    have h2 := cond_append_white mFinal 14 (by decide) w l hw hcond
    rw [h.2.1] at h2
    exact Bool.false_ne_true h2
  · rw [Bool.eq_false_iff]
    intro hcond
    have h2 := cond_append_white mThinkingMarker 17 (by decide) w l hw hcond
    rw [h.2.2] at h2
    exact Bool.false_ne_true h2

theorem hasMatch_append_white (s w : List Char)
    (hw : ∀ x ∈ w, jsWhite x = true) :
    ∀ prev, hasMatch prev s = true → hasMatch prev (s ++ w) = true := by
  induction s with
  | nil =>
    intro prev h
    exact absurd h (by simp [hasMatch])
  | cons c s' ih =>
    intro prev h
    rw [List.cons_append]
    simp only [hasMatch, Bool.or_eq_true] at h ⊢
    rcases h with h | h
    · left
      rw [Bool.and_eq_true] at h ⊢
      refine ⟨h.1, ?_⟩
      by_cases hn : matchAt (c :: (s' ++ w)) = none
      · have h3 := matchAt_append_white (c :: s') w hw
          (by rw [List.cons_append]; exact hn)
        rw [h3] at h
        exact absurd h.2 (by simp)
      · rwa [← Option.ne_none_iff_isSome]
    · right
      exact ih (some c) h

theorem hasMatch_trimL_rev (u : List Char)
    (h : hasMatch none (trimL u) = true) : hasMatch none u = true := by
  induction u with
  | nil => simpa [trimL] using h
  | cons c cs ih =>
    rw [trimL, List.dropWhile_cons] at h
    split at h
    · next hw =>
      have h2 := ih h
      simp only [hasMatch, Bool.or_eq_true]
      right
      rw [hasMatch_congr (some c) none (by simp [boundary, not_word_of_white c hw])]
      exact h2
    · exact h

theorem hasMatch_trimR_rev (u : List Char)
    (h : hasMatch none (trimR u) = true) : hasMatch none u = true := by
  rw [trimR_append u]
  exact hasMatch_append_white (trimR u) _ (mem_trimR_rest_white u) none h

theorem hasMatch_jsTrim_rev (u : List Char)
    (h : hasMatch none (jsTrim u) = true) : hasMatch none u = true :=
  hasMatch_trimL_rev u (hasMatch_trimR_rev (trimL u) h)

/-! ### Fixpoint lemmas and the idempotence theorem -/

theorem removeMarkers_eq_self (l : List Char) : ∀ prev,
    hasMatch prev l = false → removeMarkers prev l = l := by
  induction l with
  | nil => intro prev _; exact removeMarkers_nil prev
  | cons c cs ih =>
    intro prev h
    simp only [hasMatch, Bool.or_eq_false_iff] at h
    obtain ⟨h1, h2⟩ := h
    by_cases hb : boundary prev = true
    · rw [hb, Bool.true_and] at h1
      have hm : matchAt (c :: cs) = none := by
        cases hmm : matchAt (c :: cs) with
        | none => rfl
        | some v => rw [hmm] at h1; simp at h1
      rw [removeMarkers_cons_keep prev c cs hb hm, ih (some c) h2]
    · rw [removeMarkers_cons_noB prev c cs (by simpa using hb), ih (some c) h2]

theorem cleanLLMResponse_no_final_marker (l : List Char) :
    containsSeq mFinal (cleanLLMResponse l) = false := by
  rw [Bool.eq_false_iff]
  intro hc
  have h1 := containsSeq_trimL_rev mFinal _ (containsSeq_trimR_rev mFinal _ hc)
  have h2 := containsSeq_squashGo_rev mFinal (by decide) (by decide) _ 0 h1
  have h3 := afterLast_no_occurrence mFinal (by decide) l
  have h4 := removeMarkers_no_pattern mFinal (by decide) (by decide) none
    (afterLast mFinal l) h3
  rw [h4] at h2
  exact Bool.false_ne_true h2

theorem cleanLLMResponse_no_match (l : List Char) :
    hasMatch none (cleanLLMResponse l) = false := by
  rw [Bool.eq_false_iff]
  intro hc
  have h1 := hasMatch_squash_rev _ (hasMatch_jsTrim_rev _ hc)
  have h2 := removeMarkers_no_match none (afterLast mFinal l)
  rw [h2] at h1
  exact Bool.false_ne_true h1

theorem cleanLLMResponse_runOK (l : List Char) :
    runOK 0 (cleanLLMResponse l) = true :=
  runOK_jsTrim _ (squashNl_runOK _)

/-- C6: `cleanLLMResponse` is idempotent — applying the formatter twice
yields byte-identical output to applying it once. -/
theorem cleanLLMResponse_idem (l : List Char) :
    cleanLLMResponse (cleanLLMResponse l) = cleanLLMResponse l := by
  show jsTrim (squashNl (removeMarkers none
    (afterLast mFinal (cleanLLMResponse l)))) = cleanLLMResponse l
  rw [afterLast_eq_self mFinal _ (cleanLLMResponse_no_final_marker l),
    removeMarkers_eq_self _ none (cleanLLMResponse_no_match l),
    squashNl_eq_self _ (cleanLLMResponse_runOK l)]
  exact jsTrim_idem _

theorem cleanLLMResponse_idem_witness :
    cleanLLMResponse (cleanLLMResponse (String.toList
      "assistantanalysis draft assistantfinal  The answer.\n\n\n\nDone  ")) =
    cleanLLMResponse (String.toList
      "assistantanalysis draft assistantfinal  The answer.\n\n\n\nDone  ") :=
  cleanLLMResponse_idem _

end MCP
